import Mathlib

/-!
Shallow embedding of the bindle-file archive engine (src/c/bindle.c) and
proofs about it.  Files are modelled as lists of bytes (`List Nat`, values
below 256 in well formed files), C strings as lists of nonzero bytes, and
the zstd codec as an abstract structure of functions.  The in-memory
`Bindle` state mirrors `struct Bindle` (with the `FILE *` handle replaced
by the current file content, and `count` by the list length).
-/

/-- Alignment helper, `ALIGN_UP(n, m)` from bindle.c line 11.  For `m` a
power of two the C mask formula `(n + m - 1) & ~(m - 1)` equals
`(n + m - 1) / m * m`. -/
def alignUp (n m : Nat) : Nat := (n + m - 1) / m * m

/-- The 8-byte magic "BINDL001" (bindle.c line 9). -/
def MAGIC : List Nat := [66, 73, 78, 68, 76, 48, 48, 49]

/-- `BindleEntryRaw` (bindle.c lines 15-23): the packed little-endian
on-disk entry record.  Fields are Nats; the C types (u64/u32/u16/u8) show
up as explicit `% 2^w` reductions at the points where C performs a
narrowing assignment, and as byte widths in the serializer. -/
structure BindleEntryRaw where
  offset : Nat
  compressed_size : Nat
  uncompressed_size : Nat
  crc32 : Nat
  name_len : Nat
  compression_type : Nat
  reserved : Nat
deriving DecidableEq

/-- `BindleEntry` (bindle.c lines 32-35): in-memory entry, metadata plus
owned name string. -/
structure BindleEntry where
  meta : BindleEntryRaw
  name : List Nat
deriving DecidableEq

/-- `struct Bindle` (bindle.c lines 37-43).  `file` stands for the bytes
currently in the file behind `fp`; `count` is `entries.length`. -/
structure Bindle where
  entries : List BindleEntry
  data_end : Nat
  file : List Nat
deriving DecidableEq

/-- Abstract zstd codec: `compress` models `ZSTD_compress` at level 3
(`none` when `ZSTD_isError` holds of the result), `decompress` models
`ZSTD_decompress dst dstCapacity src srcSize`, returning the raw size_t
return value together with the contents of the destination buffer. -/
structure Zstd where
  compress : List Nat → Option (List Nat)
  decompress : Nat → List Nat → Nat × List Nat

/-- Overwrite the bytes of `f` from position `p` on with `bs`
(an `fseek(p, SEEK_SET)` followed by `fwrite(bs)`); seeking past the end
zero-fills the gap. -/
def writeAt (f : List Nat) (p : Nat) (bs : List Nat) : List Nat :=
  (f.take p ++ List.replicate (p - f.length) 0) ++ bs ++ f.drop (p + bs.length)

/-- Read `w` bytes of `f` starting at position `p` (an `fseek` plus
`fread`; a short read returns only the available bytes). -/
def readAt (f : List Nat) (p w : Nat) : List Nat := (f.drop p).take w

/-- The in-place update performed on a shadowed entry (bindle.c lines
140-143): offset, sizes and compression type (`compress ? 1 : 0`) are
overwritten; crc32, name and name_len are left untouched. -/
def shadowUpd (e : BindleEntry) (off cs us c : Nat) : BindleEntry :=
  { e with meta := { e.meta with
      offset := off, compressed_size := cs, uncompressed_size := us,
      compression_type := if c ≠ 0 then 1 else 0 } }

/-- The shadowing loop of `bindle_add` (bindle.c lines 137-148): the first
entry whose name matches gets `shadowUpd` applied in place. -/
def shadowFirst : List BindleEntry → List Nat → Nat → Nat → Nat → Nat → List BindleEntry
  | [], _, _, _, _, _ => []
  | e :: rest, name, off, cs, us, c =>
    if e.name == name then
      shadowUpd e off cs us c :: rest
    else
      e :: shadowFirst rest name off cs us c

/-- `bindle_add` (bindle.c lines 104-160).  `c` is the `BindleCompress`
argument (0 = None, 1 = Zstd, 2 = Auto); only `c = 1` compresses.  The
payload is written at `data_end`, padded to 8 bytes; then either the first
entry with this name is shadowed or a new entry is appended with
`crc32 = 0`, `name_len = (uint16_t)strlen(name)` and
`compression_type = (uint8_t)compress`. -/
def bindle_add (Z : Zstd) (b : Bindle) (name data : List Nat) (c : Nat) :
    Option Bindle :=
  match (if c = 1 then Z.compress data else some data) with
  | none => none
  | some payload =>
    let offset := b.data_end
    let pad := alignUp payload.length 8 - payload.length
    let newfile := writeAt b.file offset (payload ++ List.replicate pad 0)
    let de := offset + payload.length + pad
    if b.entries.any (fun e => e.name == name) then
      some ⟨shadowFirst b.entries name offset payload.length data.length c, de, newfile⟩
    else
      some ⟨b.entries ++
        [⟨⟨offset, payload.length, data.length, 0, name.length % 65536, c % 256, 0⟩, name⟩],
        de, newfile⟩

/-- `bindle_read` (bindle.c lines 162-183).  Linear scan for the first
matching name; reads `compressed_size` bytes at `offset`; for a Zstd entry
it calls the decompressor with a buffer of `uncompressed_size` capacity and
returns the destination buffer with `out_len` set to the raw return value,
without any error or size check.  `none` models the NULL (not found)
return; `some (out_len, buf)` the returned buffer. -/
def bindle_read (Z : Zstd) (b : Bindle) (name : List Nat) :
    Option (Nat × List Nat) :=
  match b.entries.find? (fun e => e.name == name) with
  | none => none
  | some e =>
    let c_buf := readAt b.file e.meta.offset e.meta.compressed_size
    if e.meta.compression_type = 1 then
      let r := Z.decompress e.meta.uncompressed_size c_buf
      some (r.1, r.2)
    else
      some (e.meta.compressed_size, c_buf)

/-- Little-endian byte encoding of `n` in `w` bytes. -/
def encLE : Nat → Nat → List Nat
  | 0, _ => []
  | w + 1, n => n % 256 :: encLE w (n / 256)

/-- Little-endian byte decoding. -/
def decLE : List Nat → Nat
  | [] => 0
  | b :: rest => b + 256 * decLE rest

/-- The 32 bytes of a packed `BindleEntryRaw` as written by `fwrite` of the
struct (bindle.c lines 209, 289). -/
def encEntryRaw (m : BindleEntryRaw) : List Nat :=
  encLE 8 m.offset ++ encLE 8 m.compressed_size ++ encLE 8 m.uncompressed_size ++
  encLE 4 m.crc32 ++ encLE 2 m.name_len ++ encLE 1 m.compression_type ++
  encLE 1 m.reserved

/-- One on-disk index record: raw struct, `name_len` name bytes, zero
padding to the next 8-byte boundary (bindle.c lines 209-217). -/
def encRecord (e : BindleEntry) : List Nat :=
  encEntryRaw e.meta ++ e.name.take e.meta.name_len ++
    List.replicate (alignUp (32 + e.meta.name_len) 8 - (32 + e.meta.name_len)) 0

/-- `bindle_save` (bindle.c lines 203-224): seek to `data_end`, write all
index records in order followed by the 16-byte footer
`{index_offset, entry_count}`.  No truncation is performed.  Entries and
`data_end` are unchanged. -/
def bindle_save (b : Bindle) : Bindle :=
  ⟨b.entries, b.data_end,
   writeAt b.file b.data_end
     (((b.entries.map encRecord).flatten) ++ encLE 8 b.data_end ++ encLE 8 b.entries.length)⟩

/-- Decode a packed `BindleEntryRaw` from the 32 bytes at position `p`. -/
def decEntryRawAt (f : List Nat) (p : Nat) : BindleEntryRaw :=
  ⟨decLE (readAt f p 8), decLE (readAt f (p + 8) 8), decLE (readAt f (p + 16) 8),
   decLE (readAt f (p + 24) 4), decLE (readAt f (p + 28) 2),
   decLE (readAt f (p + 30) 1), decLE (readAt f (p + 31) 1)⟩

/-- The index parsing loop of `bindle_open` (bindle.c lines 91-100):
read a raw record, read `name_len` name bytes, skip the alignment
padding, repeat `entry_count` times. -/
def parseEntries (f : List Nat) : Nat → Nat → List BindleEntry
  | _, 0 => []
  | p, n + 1 =>
    let m := decEntryRawAt f p
    ⟨m, readAt f (p + 32) m.name_len⟩ ::
      parseEntries f (p + alignUp (32 + m.name_len) 8) n

/-- `bindle_open` (bindle.c lines 47-102), as a function of the current
file content (`[]` for a nonexistent or empty file, in which case the
magic is written and an empty archive returned).  A bad magic or a file
too short for magic or footer yields NULL (`none`); otherwise the footer
at `file_size - 16` gives the index offset (the new `data_end`) and entry
count, and the index is parsed from there. -/
def bindle_open (file : List Nat) : Option Bindle :=
  if file.length = 0 then
    some ⟨[], 8, MAGIC⟩
  else if file.take 8 = MAGIC then
    if file.length < 16 then
      none
    else
      some ⟨parseEntries file (decLE (readAt file (file.length - 16) 8))
              (decLE (readAt file (file.length - 8) 8)),
            decLE (readAt file (file.length - 16) 8), file⟩
  else
    none

/-- `bindle_length` (bindle.c line 226): `b ? b->count : 0`. -/
def bindle_length : Option Bindle → Nat
  | none => 0
  | some b => b.entries.length

/-- `bindle_entry_name` (bindle.c lines 228-233): NULL when the handle is
nil or the index is out of range, otherwise the entry name together with
the value stored into `*namelen` (the `name_len` metadata field). -/
def bindle_entry_name : Option Bindle → Nat → Option (List Nat × Nat)
  | none, _ => none
  | some b, i =>
    if h : i < b.entries.length then
      some ((b.entries.get ⟨i, h⟩).name, (b.entries.get ⟨i, h⟩).meta.name_len)
    else
      none

/-- The copy loop of `bindle_vacuum` (bindle.c lines 263-284): for each
entry in order, read its stored payload from the source file, append it
(zero padded to 8) to the output file at the running offset, and rewrite
the in-memory offset.  Returns the new entries, the final offset and the
output file. -/
def vacuumCopy (src : List Nat) :
    List BindleEntry → Nat → List Nat → List BindleEntry × Nat × List Nat
  | [], cur, out => ([], cur, out)
  | e :: rest, cur, out =>
    let size := e.meta.compressed_size
    let buf := readAt src e.meta.offset size
    let pad := alignUp size 8 - size
    let out1 := writeAt out cur
      ((buf ++ List.replicate (size - buf.length) 0) ++ List.replicate pad 0)
    let r := vacuumCopy src rest (cur + size + pad) out1
    ({ e with meta := { e.meta with offset := cur } } :: r.1, r.2)

/-- `bindle_vacuum` (bindle.c lines 249-327): write the magic to a fresh
temp file, copy every live payload across (rewriting in-memory offsets),
append index and footer exactly as `bindle_save` does, rename over the
original and set `data_end` to the new index start. -/
def bindle_vacuum (b : Bindle) : Bindle :=
  let r := vacuumCopy b.file b.entries 8 MAGIC
  ⟨r.1, r.2.1,
   writeAt r.2.2 r.2.1
     (((r.1.map encRecord).flatten) ++ encLE 8 r.2.1 ++ encLE 8 r.1.length)⟩

/-- Modelled from the spec: `bindle_remove` is declared and tested by
src/test/test.c but its definition is not under src/.  Spec section 4.8:
remove the entry with the given name from the in-memory list, preserving
the order of the remaining entries; the payload bytes stay in the data
region as dead space. -/
def bindle_remove (b : Bindle) (name : List Nat) : Bindle :=
  { b with entries := b.entries.eraseP (fun e => e.name == name) }

/-- One bit-step of the reflected CRC-32 with polynomial 0xEDB88320. -/
def crc32Step (crc : Nat) : Nat :=
  if crc % 2 = 1 then (crc / 2) ^^^ 0xEDB88320 else crc / 2

/-- Eight bit-steps. -/
def crc32Rounds : Nat → Nat → Nat
  | 0, crc => crc
  | k + 1, crc => crc32Rounds k (crc32Step crc)

/-- Modelled from the spec: CRC-32 of a byte sequence (data model item
`crc32`, glossary entry CRC-32: the standard 32-bit CRC over the
uncompressed payload).  The codec layer computing it is not under src/. -/
def crc32 (data : List Nat) : Nat :=
  (data.foldl (fun crc b => crc32Rounds 8 (crc ^^^ (b % 256))) 0xFFFFFFFF) ^^^ 0xFFFFFFFF

/-- A fresh archive as produced by `bindle_open` on a nonexistent or empty
file: magic written, `data_end = 8`, no entries. -/
def freshBindle : Bindle := ⟨[], 8, MAGIC⟩

/-- An identity codec, used to instantiate theorems at concrete inputs:
compression always succeeds and returns the input, decompression returns
the source bytes and their length. -/
def idZ : Zstd := ⟨fun d => some d, fun _ src => (src.length, src)⟩

/-- A codec whose decompressor always reports failure, returning the
size_t error code `2^64 - 1` and leaving the destination buffer filled
with garbage; used to exhibit the missing `ZSTD_isError` check in
`bindle_read`. -/
def badZ : Zstd :=
  ⟨fun _ => some [9], fun cap _ => (18446744073709551615, List.replicate cap 7)⟩

/-- Well formed in-memory entry: the stored `name_len` agrees with the
name, and every numeric field fits its C integer type. -/
def EntryWf (e : BindleEntry) : Prop :=
  e.meta.name_len = e.name.length ∧ e.name.length < 65536 ∧
  e.meta.offset < 2 ^ 64 ∧ e.meta.compressed_size < 2 ^ 64 ∧
  e.meta.uncompressed_size < 2 ^ 64 ∧ e.meta.crc32 < 2 ^ 32 ∧
  e.meta.compression_type < 256 ∧ e.meta.reserved < 256

/-- Invariant maintained by `bindle_add` along runs that start from a
fresh archive: `data_end` is the end of the file, the magic is in place,
and entry metadata is internally consistent. -/
def BInv (b : Bindle) : Prop :=
  b.data_end = b.file.length ∧ 8 ≤ b.data_end ∧ b.file.take 8 = MAGIC ∧
  ∀ e ∈ b.entries,
    e.meta.name_len = e.name.length ∧ e.name.length < 65536 ∧
    e.meta.offset + e.meta.compressed_size ≤ b.data_end ∧
    e.meta.uncompressed_size < 2 ^ 64 ∧ e.meta.crc32 < 2 ^ 32 ∧
    e.meta.compression_type < 256 ∧ e.meta.reserved < 256

/-- A sequence of `bindle_add` calls: each item is (name, data, compress
mode); the run fails if any add fails. -/
def runAdds (Z : Zstd) : Bindle → List (List Nat × List Nat × Nat) → Option Bindle
  | b, [] => some b
  | b, x :: rest =>
    match bindle_add Z b x.1 x.2.1 x.2.2 with
    | none => none
    | some b1 => runAdds Z b1 rest

/-- The metadata of an entry that vacuum must preserve: name, crc32,
compression type, compressed and uncompressed size. -/
def entrySig (e : BindleEntry) : List Nat × Nat × Nat × Nat × Nat :=
  (e.name, e.meta.crc32, e.meta.compression_type, e.meta.compressed_size,
   e.meta.uncompressed_size)

/-! ### Basic facts about the byte-level helpers -/

lemma length_encLE (w n : Nat) : (encLE w n).length = w := by
  induction w generalizing n with
  | zero => rfl
  | succ w ih => simp [encLE, ih]

lemma decLE_encLE (w n : Nat) : decLE (encLE w n) = n % 256 ^ w := by
  induction w generalizing n with
  | zero => simp [encLE, decLE, Nat.mod_one]
  | succ w ih => rw [encLE, decLE, ih, pow_succ, mul_comm (256 ^ w) 256, Nat.mod_mul]

lemma decLE_encLE_of_lt {w n : Nat} (h : n < 256 ^ w) : decLE (encLE w n) = n := by
  rw [decLE_encLE, Nat.mod_eq_of_lt h]

lemma le_alignUp (n : Nat) : n ≤ alignUp n 8 := by
  unfold alignUp; omega

lemma writeAt_of_length_eq {f : List Nat} {p : Nat} (bs : List Nat) (h : f.length = p) :
    writeAt f p bs = f ++ bs := by
  subst h
  simp [writeAt, List.drop_eq_nil_of_le]

lemma readAt_append_add (xs ys : List Nat) (k w : Nat) :
    readAt (xs ++ ys) (xs.length + k) w = readAt ys k w := by
  simp [readAt, List.drop_append]

lemma readAt_base (xs ys : List Nat) (w : Nat) :
    readAt (xs ++ ys) xs.length w = readAt ys 0 w := by
  simpa using readAt_append_add xs ys 0 w

lemma readAt_front {xs : List Nat} (ys : List Nat) {w : Nat} (h : xs.length = w) :
    readAt (xs ++ ys) 0 w = xs := by
  simp [readAt, ← h, List.take_left]

lemma readAt_ge {xs : List Nat} (ys : List Nat) {p : Nat} (w : Nat) (h : xs.length ≤ p) :
    readAt (xs ++ ys) p w = readAt ys (p - xs.length) w := by
  have h2 : p = xs.length + (p - xs.length) := by omega
  rw [h2, readAt_append_add]
  congr 1
  omega

lemma readAt_writeAt {f bs : List Nat} (p : Nat) {w : Nat} (h : w ≤ bs.length) :
    readAt (writeAt f p bs) p w = bs.take w := by
  rw [writeAt]
  set A := f.take p ++ List.replicate (p - f.length) 0 with hA
  have hlen : A.length = p := by
    simp [hA, List.length_take]
    omega
  rw [List.append_assoc, ← hlen, readAt_base]
  simp [readAt, List.take_append_of_le_length h]

lemma readAt_zero_take (f : List Nat) (w : Nat) : readAt f 0 w = f.take w := by
  simp [readAt]

/-! ### Record serialization round-trip -/

lemma length_encEntryRaw (m : BindleEntryRaw) : (encEntryRaw m).length = 32 := by
  simp [encEntryRaw, length_encLE]

lemma length_encRecord {e : BindleEntry} (h : e.meta.name_len = e.name.length) :
    (encRecord e).length = alignUp (32 + e.meta.name_len) 8 := by
  simp only [encRecord, List.length_append, length_encEntryRaw, List.length_take,
    List.length_replicate, h, Nat.min_self]
  have hle := le_alignUp (32 + e.name.length)
  omega

lemma two_pow_64 : (2 : Nat) ^ 64 = 256 ^ 8 := by norm_num
lemma two_pow_32 : (2 : Nat) ^ 32 = 256 ^ 4 := by norm_num
lemma pow_65536 : (65536 : Nat) = 256 ^ 2 := by norm_num

lemma decEntryRawAt_encEntryRaw (m : BindleEntryRaw) (tail : List Nat)
    (ho : m.offset < 256 ^ 8) (hc : m.compressed_size < 256 ^ 8)
    (hu : m.uncompressed_size < 256 ^ 8) (hr : m.crc32 < 256 ^ 4)
    (hn : m.name_len < 256 ^ 2) (hct : m.compression_type < 256)
    (hres : m.reserved < 256) :
    decEntryRawAt (encEntryRaw m ++ tail) 0 = m := by
  obtain ⟨o, cs, us, r, nl, ct, rv⟩ := m
  simp only [encEntryRaw, List.append_assoc]
  simp only [decEntryRawAt]
  simp [readAt_ge, readAt_front, length_encLE, decLE_encLE, Nat.mod_eq_of_lt, *]
  norm_num at ho hc hu hr hn
  exact ⟨ho, hc, hu, hr, hn⟩

lemma decEntryRawAt_append (xs ys : List Nat) :
    decEntryRawAt (xs ++ ys) xs.length = decEntryRawAt ys 0 := by
  simp [decEntryRawAt, readAt_base, readAt_append_add]

lemma readAt_record_name {e : BindleEntry} (rest : List Nat)
    (hnl : e.meta.name_len = e.name.length) :
    readAt (encRecord e ++ rest) 32 e.meta.name_len = e.name := by
  simp only [encRecord, List.append_assoc]
  rw [readAt_ge _ _ (by simp [length_encEntryRaw])]
  simp only [length_encEntryRaw, Nat.sub_self]
  rw [readAt_front _ (by simp [List.length_take, hnl])]
  rw [hnl, List.take_length]

lemma decode_record (pre rest : List Nat) (e : BindleEntry) (hwf : EntryWf e) :
    decEntryRawAt (pre ++ (encRecord e ++ rest)) pre.length = e.meta ∧
    readAt (pre ++ (encRecord e ++ rest)) (pre.length + 32) e.meta.name_len = e.name := by
  obtain ⟨hnl, hname, ho, hc, hu, hr, hct, hres⟩ := hwf
  constructor
  · rw [decEntryRawAt_append]
    have : encRecord e ++ rest =
        encEntryRaw e.meta ++ (e.name.take e.meta.name_len ++
          (List.replicate (alignUp (32 + e.meta.name_len) 8 - (32 + e.meta.name_len)) 0 ++ rest)) := by
      simp [encRecord, List.append_assoc]
    rw [this]
    exact decEntryRawAt_encEntryRaw e.meta _ (two_pow_64 ▸ ho) (two_pow_64 ▸ hc)
      (two_pow_64 ▸ hu) (two_pow_32 ▸ hr) (by rw [← pow_65536, hnl]; exact hname) hct hres
  · rw [readAt_append_add]
    exact readAt_record_name rest hnl

lemma parseEntries_append (es : List BindleEntry) :
    ∀ (pre rest : List Nat), (∀ e ∈ es, EntryWf e) →
      parseEntries (pre ++ ((es.map encRecord).flatten ++ rest)) pre.length es.length = es := by
  induction es with
  | nil => intro pre rest _; rfl
  | cons e es ih =>
    intro pre rest h
    have hwf : EntryWf e := h e (by simp)
    have hflat : ((e :: es).map encRecord).flatten ++ rest =
        encRecord e ++ ((es.map encRecord).flatten ++ rest) := by
      simp
    rw [hflat]
    obtain ⟨hmeta, hname⟩ := decode_record pre ((es.map encRecord).flatten ++ rest) e hwf
    show parseEntries _ _ (es.length + 1) = e :: es
    rw [parseEntries, hmeta, hname]
    have hpos : pre.length + alignUp (32 + e.meta.name_len) 8 =
        (pre ++ encRecord e).length := by
      simp [List.length_append, length_encRecord hwf.1]
    rw [hpos]
    have hassoc : pre ++ (encRecord e ++ ((es.map encRecord).flatten ++ rest)) =
        (pre ++ encRecord e) ++ ((es.map encRecord).flatten ++ rest) := by
      simp [List.append_assoc]
    rw [hassoc, ih (pre ++ encRecord e) rest (fun x hx => h x (by simp [hx]))]

lemma readAt_all (l : List Nat) {w : Nat} (h : l.length = w) : readAt l 0 w = l := by
  simp [readAt, ← h, List.take_length]

/-- Saving and reopening recovers the in-memory archive exactly, for any
archive state whose entries are well formed and whose `data_end` is the
current end of the file. -/
theorem open_save (b : Bindle)
    (hlen : b.data_end = b.file.length) (h8 : 8 ≤ b.data_end)
    (hmagic : b.file.take 8 = MAGIC)
    (hde : b.data_end < 2 ^ 64) (hcount : b.entries.length < 2 ^ 64)
    (hwf : ∀ e ∈ b.entries, EntryWf e) :
    bindle_open (bindle_save b).file =
      some ⟨b.entries, b.data_end, (bindle_save b).file⟩ := by
  have hfile8 : 8 ≤ b.file.length := hlen ▸ h8
  have hF : (bindle_save b).file = b.file ++ ((b.entries.map encRecord).flatten ++
      (encLE 8 b.data_end ++ encLE 8 b.entries.length)) := by
    simp [bindle_save, writeAt_of_length_eq _ hlen.symm]
  rw [hF]
  set I := (b.entries.map encRecord).flatten with hI
  set G := b.file ++ (I ++ (encLE 8 b.data_end ++ encLE 8 b.entries.length)) with hG
  have hGlen : G.length = b.file.length + I.length + 16 := by
    simp [hG, List.length_append, length_encLE]
    omega
  have hc1 : ¬ (G.length = 0) := by omega
  have hc2 : G.take 8 = MAGIC := by
    rw [hG, List.take_append_of_le_length hfile8, hmagic]
  have hc3 : ¬ (G.length < 16) := by omega
  have hsplit1 : G = (b.file ++ I) ++ (encLE 8 b.data_end ++ encLE 8 b.entries.length) := by
    rw [hG, List.append_assoc]
  have hsplit2 : G = ((b.file ++ I) ++ encLE 8 b.data_end) ++ encLE 8 b.entries.length := by
    rw [hG]
    simp [List.append_assoc]
  have hfoot1 : decLE (readAt G (G.length - 16) 8) = b.data_end := by
    have h1 : G.length - 16 = (b.file ++ I).length := by
      simp [List.length_append]
      omega
    rw [h1]
    conv =>
      lhs
      rw [hsplit1]
    rw [readAt_base, readAt_front _ (length_encLE 8 b.data_end)]
    exact decLE_encLE_of_lt (two_pow_64 ▸ hde)
  have hfoot2 : decLE (readAt G (G.length - 8) 8) = b.entries.length := by
    have h2 : G.length - 8 = ((b.file ++ I) ++ encLE 8 b.data_end).length := by
      simp [List.length_append, length_encLE]
      omega
    rw [h2]
    conv =>
      lhs
      rw [hsplit2]
    rw [readAt_base, readAt_all _ (length_encLE 8 b.entries.length)]
    exact decLE_encLE_of_lt (two_pow_64 ▸ hcount)
  have hparse : parseEntries G b.data_end b.entries.length = b.entries := by
    conv =>
      lhs
      rw [hG, hlen]
    exact parseEntries_append b.entries b.file _ hwf
  rw [bindle_open, if_neg hc1, if_pos hc2, if_neg hc3, hfoot1, hfoot2, hparse]

/-! ### Facts about the shadowing loop and `bindle_add` -/

lemma shadowFirst_forall {P : BindleEntry → Prop} {n : List Nat} {off cs us c : Nat} :
    ∀ {es : List BindleEntry},
      (∀ e ∈ es, P e) →
      (∀ e ∈ es, P (shadowUpd e off cs us c)) →
      ∀ e ∈ shadowFirst es n off cs us c, P e := by
  intro es
  induction es with
  | nil =>
    intro _ _ e he
    simp [shadowFirst] at he
  | cons a t ih =>
    intro h1 h2 e he
    rw [shadowFirst] at he
    by_cases hm : (a.name == n) = true
    · rw [if_pos hm] at he
      rcases List.mem_cons.mp he with rfl | het
      · exact h2 a (by simp)
      · exact h1 e (by simp [het])
    · rw [if_neg hm] at he
      rcases List.mem_cons.mp he with rfl | het
      · exact h1 e (by simp)
      · exact ih (fun x hx => h1 x (by simp [hx])) (fun x hx => h2 x (by simp [hx])) e het

lemma shadowFirst_map_name (n : List Nat) (off cs us c : Nat) :
    ∀ (es : List BindleEntry),
      (shadowFirst es n off cs us c).map (fun e => e.name) = es.map (fun e => e.name) := by
  intro es
  induction es with
  | nil => rfl
  | cons a t ih =>
    rw [shadowFirst]
    by_cases hm : (a.name == n) = true
    · rw [if_pos hm]
      simp [shadowUpd]
    · rw [if_neg hm]
      simp [ih]

lemma find?_shadowFirst {n : List Nat} (off cs us c : Nat) :
    ∀ {es : List BindleEntry}, es.any (fun e => e.name == n) = true →
      ∃ e0, (shadowFirst es n off cs us c).find? (fun e => e.name == n) = some e0 ∧
        e0.meta.offset = off ∧ e0.meta.compressed_size = cs ∧
        e0.meta.uncompressed_size = us ∧
        e0.meta.compression_type = (if c ≠ 0 then 1 else 0) ∧
        e0.meta.crc32 = (es.find? (fun e => e.name == n)).elim 0 (fun e => e.meta.crc32) := by
  intro es
  induction es with
  | nil => intro h; simp at h
  | cons a t ih =>
    intro h
    rw [shadowFirst]
    by_cases hm : (a.name == n) = true
    · rw [if_pos hm]
      refine ⟨shadowUpd a off cs us c, ?_, rfl, rfl, rfl, rfl, ?_⟩
      · simp [List.find?_cons, shadowUpd, hm]
      · simp [List.find?_cons, shadowUpd, hm]
    · rw [if_neg hm]
      have ht : t.any (fun e => e.name == n) = true := by
        rcases List.any_eq_true.mp h with ⟨x, hx, hpx⟩
        rcases List.mem_cons.mp hx with rfl | hxt
        · exact absurd hpx hm
        · exact List.any_eq_true.mpr ⟨x, hxt, hpx⟩
      obtain ⟨e0, hfind, h1, h2, h3, h4, h5⟩ := ih ht
      refine ⟨e0, ?_, h1, h2, h3, h4, ?_⟩
      · simp [List.find?_cons, hm, hfind]
      · simpa [List.find?_cons, hm] using h5

lemma add_inversion {Z : Zstd} {b : Bindle} {name data : List Nat} {c : Nat} {b1 : Bindle}
    (h : bindle_add Z b name data c = some b1) :
    ∃ payload : List Nat,
      (if c = 1 then Z.compress data else some data) = some payload ∧
      b1.data_end = b.data_end + payload.length + (alignUp payload.length 8 - payload.length) ∧
      b1.file = writeAt b.file b.data_end
        (payload ++ List.replicate (alignUp payload.length 8 - payload.length) 0) ∧
      ((b.entries.any (fun e => e.name == name) = true ∧
        b1.entries = shadowFirst b.entries name b.data_end payload.length data.length c) ∨
       (b.entries.any (fun e => e.name == name) = false ∧
        b1.entries = b.entries ++
          [⟨⟨b.data_end, payload.length, data.length, 0, name.length % 65536, c % 256, 0⟩,
            name⟩])) := by
  rw [bindle_add] at h
  rcases hpay : (if c = 1 then Z.compress data else some data) with _ | payload
  · rw [hpay] at h
    simp at h
  · rw [hpay] at h
    simp only [] at h
    refine ⟨payload, rfl, ?_⟩
    by_cases hany : b.entries.any (fun e => e.name == name) = true
    · rw [if_pos hany] at h
      obtain rfl := (Option.some.inj h).symm
      exact ⟨rfl, rfl, Or.inl ⟨hany, rfl⟩⟩
    · rw [if_neg hany] at h
      obtain rfl := (Option.some.inj h).symm
      exact ⟨rfl, rfl, Or.inr ⟨Bool.not_eq_true _ ▸ hany, rfl⟩⟩

/-! ### The reachability invariant -/

lemma BInv_fresh : BInv freshBindle :=
  ⟨by decide, by decide, by decide, by simp [freshBindle]⟩

lemma add_BInv {Z : Zstd} {b : Bindle} {name data : List Nat} {c : Nat} {b1 : Bindle}
    (h : bindle_add Z b name data c = some b1)
    (hInv : BInv b) (hn : name.length ≤ 65535) (hd : data.length < 2 ^ 64) :
    BInv b1 ∧ b.data_end ≤ b1.data_end := by
  obtain ⟨payload, hpay, hde, hfile, hent⟩ := add_inversion h
  obtain ⟨hlen, h8, hmagic, hwf⟩ := hInv
  have hple : payload.length ≤ alignUp payload.length 8 := le_alignUp _
  have hmono : b.data_end ≤ b1.data_end := by omega
  have hfile1 : b1.file = b.file ++
      (payload ++ List.replicate (alignUp payload.length 8 - payload.length) 0) := by
    rw [hfile, writeAt_of_length_eq _ hlen.symm]
  have hflen : b1.file.length = b1.data_end := by
    simp [hfile1, List.length_append, List.length_replicate]
    omega
  refine ⟨⟨hflen.symm, by omega, ?_, ?_⟩, hmono⟩
  · rw [hfile1, List.take_append_of_le_length (by omega), hmagic]
  · rcases hent with ⟨hany, hent⟩ | ⟨hany, hent⟩
    · rw [hent]
      apply shadowFirst_forall
      · intro e he
        obtain ⟨a1, a2, a3, a4, a5, a6, a7⟩ := hwf e he
        exact ⟨a1, a2, by omega, a4, a5, a6, a7⟩
      · intro e he
        obtain ⟨a1, a2, a3, a4, a5, a6, a7⟩ := hwf e he
        refine ⟨a1, a2, ?_, hd, a5, ?_, a7⟩
        · show b.data_end + payload.length ≤ b1.data_end
          omega
        · show (if c ≠ 0 then 1 else 0 : Nat) < 256
          split <;> norm_num
    · rw [hent]
      intro e he
      rcases List.mem_append.mp he with hel | her
      · obtain ⟨a1, a2, a3, a4, a5, a6, a7⟩ := hwf e hel
        exact ⟨a1, a2, by omega, a4, a5, a6, a7⟩
      · simp only [List.mem_singleton] at her
        subst her
        refine ⟨Nat.mod_eq_of_lt (by omega), ?_, ?_, hd, by norm_num,
          Nat.mod_lt _ (by norm_num), by norm_num⟩
        · show name.length < 65536
          omega
        · show b.data_end + payload.length ≤ b1.data_end
          omega

lemma BInv_entryWf {b : Bindle} (hInv : BInv b) (hde : b.data_end < 2 ^ 64) :
    ∀ e ∈ b.entries, EntryWf e := by
  intro e he
  obtain ⟨_, _, _, hwf⟩ := hInv
  obtain ⟨a1, a2, a3, a4, a5, a6, a7⟩ := hwf e he
  exact ⟨a1, a2, by omega, by omega, a4, a5, a6, a7⟩

lemma runAdds_BInv {Z : Zstd} :
    ∀ {items : List (List Nat × List Nat × Nat)} {b b1 : Bindle},
      runAdds Z b items = some b1 → BInv b →
      (∀ x ∈ items, x.1.length ≤ 65535 ∧ x.2.1.length < 2 ^ 64) →
      BInv b1 ∧ b.data_end ≤ b1.data_end := by
  intro items
  induction items with
  | nil =>
    intro b b1 h hInv _
    rw [runAdds] at h
    obtain rfl := Option.some.inj h
    exact ⟨hInv, le_refl _⟩
  | cons x rest ih =>
    intro b b1 h hInv hx
    rw [runAdds] at h
    rcases ha : bindle_add Z b x.1 x.2.1 x.2.2 with _ | b2
    · rw [ha] at h
      simp at h
    · rw [ha] at h
      simp only [] at h
      obtain ⟨hx1, hx2⟩ := hx x (by simp)
      obtain ⟨hInv2, hmono2⟩ := add_BInv ha hInv hx1 hx2
      obtain ⟨hInv1, hmono1⟩ := ih h hInv2 (fun y hy => hx y (by simp [hy]))
      exact ⟨hInv1, le_trans hmono2 hmono1⟩

/-! ### Claim C1 -/

/-- C1: for every archive handle, name `n`, byte sequence `b` and
compression mode `c` in {None, Zstd}, after a successful `add(n, b, c)` a
subsequent `read(n)` on the same handle returns exactly the bytes `b`
(for Zstd entries, under the hypothesis that the decompressor inverts the
compressor, the stored payload decompresses back to `b`). -/
theorem C1_add_read_roundtrip (Z : Zstd) (b : Bindle) (n d : List Nat) (c : Nat)
    (b1 : Bindle) (hc : c = 0 ∨ c = 1)
    (hrt : ∀ p, Z.compress d = some p → Z.decompress d.length p = (d.length, d))
    (h : bindle_add Z b n d c = some b1) :
    bindle_read Z b1 n = some (d.length, d) := by
  obtain ⟨payload, hpay, hde, hfile, hent⟩ := add_inversion h
  have hwle : payload.length ≤
      (payload ++ List.replicate (alignUp payload.length 8 - payload.length) 0).length := by
    simp
  have hread : readAt b1.file b.data_end payload.length = payload := by
    rw [hfile, readAt_writeAt _ hwle, List.take_left]
  rw [bindle_read]
  rcases hent with ⟨hany, hent⟩ | ⟨hany, hent⟩
  · obtain ⟨e0, hfind, f1, f2, f3, f4, _⟩ :=
      find?_shadowFirst b.data_end payload.length d.length c hany
    rw [hent, hfind]
    simp only [f1, f2, f3, f4]
    rcases hc with rfl | rfl
    · have hpd : payload = d := by simpa using hpay.symm
      rw [if_neg (by norm_num), hread, hpd]
    · have hcomp : Z.compress d = some payload := by simpa using hpay
      rw [if_pos (by norm_num), hread, hrt payload hcomp]
  · have hnone : b.entries.find? (fun e => e.name == n) = none := by
      rw [List.any_eq_false] at hany
      exact List.find?_eq_none.mpr hany
    have hfind : b1.entries.find? (fun e => e.name == n) =
        some ⟨⟨b.data_end, payload.length, d.length, 0, n.length % 65536, c % 256, 0⟩, n⟩ := by
      rw [hent, List.find?_append, hnone]
      simp
    rw [hfind]
    simp only []
    rcases hc with rfl | rfl
    · have hpd : payload = d := by simpa using hpay.symm
      rw [if_neg (by norm_num), hread, hpd]
    · have hcomp : Z.compress d = some payload := by simpa using hpay
      rw [if_pos (by norm_num), hread, hrt payload hcomp]

/-- Witness instantiating C1 at a concrete input: identity codec, fresh
archive, name [97], data [1, 2], compression Zstd. -/
theorem C1_witness :
    bindle_add idZ freshBindle [97] [1, 2] 1 =
      some ⟨[⟨⟨8, 2, 2, 0, 1, 1, 0⟩, [97]⟩], 16, MAGIC ++ [1, 2, 0, 0, 0, 0, 0, 0]⟩ ∧
    bindle_read idZ
      ⟨[⟨⟨8, 2, 2, 0, 1, 1, 0⟩, [97]⟩], 16, MAGIC ++ [1, 2, 0, 0, 0, 0, 0, 0]⟩ [97] =
      some (2, [1, 2]) :=
  ⟨by decide,
   C1_add_read_roundtrip idZ freshBindle [97] [1, 2] 1 _ (Or.inr rfl)
     (fun p hp => by
       simp [idZ] at hp
       subst hp
       rfl)
     (by decide)⟩

/-! ### Claim C2 -/

/-- C2: on a fresh archive, after `add(nm, d1)`, `add(nm, d2)` (both
uncompressed), `save`, and reopening the saved file, `read(nm)` returns
`d2` and the archive length is 1: the second add shadowed the first
instead of creating a second entry. -/
theorem C2_shadow_save_reopen (Z : Zstd) (nm d1 d2 : List Nat) (s1 s2 : Bindle)
    (hname : nm.length ≤ 65535)
    (hsz : 8 + alignUp d1.length 8 + alignUp d2.length 8 < 2 ^ 64)
    (h1 : bindle_add Z freshBindle nm d1 0 = some s1)
    (h2 : bindle_add Z s1 nm d2 0 = some s2) :
    (bindle_open (bindle_save s2).file).map
        (fun s => (bindle_read Z s nm, bindle_length (some s))) =
      some (some (d2.length, d2), 1) := by
  have ha1 := le_alignUp d1.length
  have ha2 := le_alignUp d2.length
  obtain ⟨p1, hpay1, hde1, hfile1, hent1⟩ := add_inversion h1
  have hp1 : d1 = p1 := by simpa using hpay1
  subst hp1
  rcases hent1 with ⟨hany1, _⟩ | ⟨_, hent1⟩
  · simp [freshBindle] at hany1
  simp only [freshBindle, List.nil_append] at hent1 hde1 hfile1
  obtain ⟨p2, hpay2, hde2, hfile2, hent2⟩ := add_inversion h2
  have hp2 : d2 = p2 := by simpa using hpay2
  subst hp2
  rcases hent2 with ⟨_, hent2⟩ | ⟨hany2, _⟩
  swap
  · rw [hent1] at hany2
    simp at hany2
  rw [hent1, shadowFirst] at hent2
  simp only [beq_self_eq_true, shadowUpd] at hent2
  norm_num at hent2
  -- invariants along the run
  have hInvPair1 := add_BInv h1 BInv_fresh hname (by omega)
  have hInv1 := hInvPair1.1
  have hInvPair2 := add_BInv h2 hInv1 hname (by omega)
  have hInv2 := hInvPair2.1
  obtain ⟨hlen2, h82, hmagic2, _⟩ := hInv2
  have hs1de : s1.data_end = 8 + alignUp d1.length 8 := by omega
  have hs2de : s2.data_end < 2 ^ 64 := by omega
  have hcount : s2.entries.length < 2 ^ 64 := by
    rw [hent2]
    norm_num
  have hopen := open_save s2 hlen2 h82 hmagic2 hs2de hcount
    (BInv_entryWf ⟨hlen2, h82, hmagic2, hInvPair2.1.2.2.2⟩ hs2de)
  -- the payload of d2 survives in the saved file
  have hs1len : s1.file.length = s1.data_end := hInv1.1.symm
  have hfile2' : s2.file = s1.file ++
      (d2 ++ List.replicate (alignUp d2.length 8 - d2.length) 0) := by
    rw [hfile2, writeAt_of_length_eq _ hs1len]
  have hFsave : (bindle_save s2).file = s2.file ++
      (((s2.entries.map encRecord).flatten) ++ encLE 8 s2.data_end ++
        encLE 8 s2.entries.length) := by
    simp [bindle_save, writeAt_of_length_eq _ hlen2.symm]
  have hreadF : readAt (bindle_save s2).file s1.data_end d2.length = d2 := by
    rw [hFsave, hfile2', List.append_assoc, ← hs1len, readAt_base, List.append_assoc,
      readAt_front _ rfl]
  -- evaluate read and length on the reopened archive
  have hfindF : s2.entries.find? (fun e => e.name == nm) =
      some ⟨⟨s1.data_end, d2.length, d2.length, 0, nm.length % 65536, 0, 0⟩, nm⟩ := by
    rw [hent2]
    simp
  have hread : bindle_read Z ⟨s2.entries, s2.data_end, (bindle_save s2).file⟩ nm =
      some (d2.length, d2) := by
    rw [bindle_read]
    dsimp only
    rw [hfindF]
    dsimp only
    rw [if_neg (by norm_num), hreadF]
  have hlen1 : bindle_length
      (some (⟨s2.entries, s2.data_end, (bindle_save s2).file⟩ : Bindle)) = 1 := by
    simp [bindle_length, hent2]
  rw [hopen]
  show some (bindle_read Z ⟨s2.entries, s2.data_end, (bindle_save s2).file⟩ nm,
    bindle_length (some (⟨s2.entries, s2.data_end, (bindle_save s2).file⟩ : Bindle))) =
    some (some (d2.length, d2), 1)
  rw [hread, hlen1]

/-- Witness instantiating C2 at a concrete input: fresh archive,
`add([97], [1])`, `add([97], [2, 3])`, save, reopen. -/
theorem C2_witness :
    (bindle_open (bindle_save ⟨[⟨⟨16, 2, 2, 0, 1, 0, 0⟩, [97]⟩], 24,
        MAGIC ++ [1, 0, 0, 0, 0, 0, 0, 0] ++ [2, 3, 0, 0, 0, 0, 0, 0]⟩).file).map
      (fun s => (bindle_read idZ s [97], bindle_length (some s))) =
      some (some (2, [2, 3]), 1) :=
  C2_shadow_save_reopen idZ [97] [1] [2, 3]
    ⟨[⟨⟨8, 1, 1, 0, 1, 0, 0⟩, [97]⟩], 16, MAGIC ++ [1, 0, 0, 0, 0, 0, 0, 0]⟩
    ⟨[⟨⟨16, 2, 2, 0, 1, 0, 0⟩, [97]⟩], 24,
      MAGIC ++ [1, 0, 0, 0, 0, 0, 0, 0] ++ [2, 3, 0, 0, 0, 0, 0, 0]⟩
    (by decide) (by decide) (by decide) (by decide)

/-! ### Claim C3 -/

lemma shadowFirst_map {α : Type} (g : BindleEntry → α)
    (hg : ∀ e off cs us c, g (shadowUpd e off cs us c) = g e)
    (n : List Nat) (off cs us c : Nat) :
    ∀ es : List BindleEntry, (shadowFirst es n off cs us c).map g = es.map g := by
  intro es
  induction es with
  | nil => rfl
  | cons a t ih =>
    rw [shadowFirst]
    by_cases hm : (a.name == n) = true
    · rw [if_pos hm]
      simp [hg]
    · rw [if_neg hm]
      simp [ih]

/-- C3 counterexample: on a fresh archive, `add([97], [0], None)` stores
`crc32 = 0` in the new entry even though the CRC-32 of the byte sequence
[0] is 3523407757 (nonzero): `bindle_add` does not compute a CRC over the
input bytes, contradicting the claim. -/
theorem C3_counterexample :
    (bindle_add idZ freshBindle [97] [0] 0).map
        (fun b => b.entries.map (fun e => e.meta.crc32)) = some [0] ∧
    crc32 [0] = 3523407757 := by
  constructor
  · decide
  · decide

/-- C3 amended: a successful `bindle_add` never computes a CRC of the
input: a shadowing add leaves every entry's `crc32` field unchanged, and
an add that appends a new entry sets its `crc32` field to 0. -/
theorem C3_amended_add_crc (Z : Zstd) (b : Bindle) (n d : List Nat) (c : Nat)
    (b1 : Bindle) (h : bindle_add Z b n d c = some b1) :
    b1.entries.map (fun e => e.meta.crc32) = b.entries.map (fun e => e.meta.crc32) ∨
    b1.entries.map (fun e => e.meta.crc32) =
      b.entries.map (fun e => e.meta.crc32) ++ [0] := by
  obtain ⟨p, _, _, _, hent⟩ := add_inversion h
  rcases hent with ⟨_, hent⟩ | ⟨_, hent⟩
  · left
    rw [hent]
    exact shadowFirst_map (fun e => e.meta.crc32) (fun e off cs us c => rfl)
      n b.data_end p.length d.length c b.entries
  · right
    rw [hent]
    simp

/-- Witness instantiating the amended C3 at a concrete input. -/
theorem C3_amended_witness :
    ((⟨[⟨⟨8, 1, 1, 0, 1, 0, 0⟩, [97]⟩], 16, MAGIC ++ [1, 0, 0, 0, 0, 0, 0, 0]⟩ :
        Bindle).entries.map (fun e => e.meta.crc32) =
      freshBindle.entries.map (fun e => e.meta.crc32)) ∨
    ((⟨[⟨⟨8, 1, 1, 0, 1, 0, 0⟩, [97]⟩], 16, MAGIC ++ [1, 0, 0, 0, 0, 0, 0, 0]⟩ :
        Bindle).entries.map (fun e => e.meta.crc32) =
      freshBindle.entries.map (fun e => e.meta.crc32) ++ [0]) :=
  C3_amended_add_crc idZ freshBindle [97] [1] 0
    ⟨[⟨⟨8, 1, 1, 0, 1, 0, 0⟩, [97]⟩], 16, MAGIC ++ [1, 0, 0, 0, 0, 0, 0, 0]⟩ (by decide)

/-! ### Claim C6 -/

/-- C6 fails on the code: when the decompressor reports an error (here
the error code `2^64 - 1`, with garbage in the output buffer),
`bindle_read` does not fail with a decode error; it returns the garbage
buffer as a successful result with `out_len` set to the raw error code.
No `ZSTD_isError` or output-length check exists in `bindle_read`. -/
theorem C6_read_ignores_decode_errors :
    (bindle_add badZ freshBindle [97] [5, 5, 5, 5] 1).map
        (fun b => bindle_read badZ b [97]) =
      some (some (18446744073709551615, [7, 7, 7, 7])) := by
  decide

/-! ### Claim C9 -/

lemma vacuumCopy_map_sig (src : List Nat) :
    ∀ (es : List BindleEntry) (cur : Nat) (out : List Nat),
      (vacuumCopy src es cur out).1.map entrySig = es.map entrySig := by
  intro es
  induction es with
  | nil => intro cur out; rfl
  | cons e t ih =>
    intro cur out
    rw [vacuumCopy]
    simp only [List.map_cons]
    rw [ih]
    rfl

/-- C9: vacuum preserves the entry count, the order of entries, and each
entry's name, crc32, compression_type, compressed_size and
uncompressed_size; only the offsets (and `data_end` and the file bytes)
are rewritten. -/
theorem C9_vacuum_frame (b : Bindle) :
    (bindle_vacuum b).entries.map entrySig = b.entries.map entrySig ∧
    (bindle_vacuum b).entries.length = b.entries.length := by
  have h := vacuumCopy_map_sig b.file b.entries 8 MAGIC
  refine ⟨h, ?_⟩
  have h2 := congrArg List.length h
  simpa using h2

/-! ### Claim C10 -/

/-- C10: `bindle_length` returns 0 on a nil handle; `bindle_entry_name`
returns nil on a nil handle or an index at or past the entry count, and
for an index below the count returns the entry's name together with the
stored `name_len`.  Both functions are pure observations of the state. -/
theorem C10_length_entry_name :
    bindle_length none = 0 ∧ (∀ i, bindle_entry_name none i = none) ∧
    (∀ (b : Bindle) (i : Nat), bindle_length (some b) ≤ i →
      bindle_entry_name (some b) i = none) ∧
    (∀ (b : Bindle) (i : Nat) (h : i < bindle_length (some b)),
      bindle_entry_name (some b) i =
        some ((b.entries.get ⟨i, h⟩).name, (b.entries.get ⟨i, h⟩).meta.name_len)) := by
  refine ⟨rfl, fun i => rfl, ?_, ?_⟩
  · intro b i h
    have h2 : b.entries.length ≤ i := h
    simp only [bindle_entry_name]
    rw [dif_neg (by omega)]
  · intro b i h
    simp only [bindle_entry_name]
    exact dif_pos h

/-- Witness instantiating C10 at a concrete archive and indices. -/
theorem C10_witness :
    bindle_entry_name (some (⟨[⟨⟨8, 1, 1, 0, 1, 0, 0⟩, [97]⟩], 16, MAGIC⟩ : Bindle)) 0 =
      some ([97], 1) ∧
    bindle_entry_name (some (⟨[⟨⟨8, 1, 1, 0, 1, 0, 0⟩, [97]⟩], 16, MAGIC⟩ : Bindle)) 3 =
      none :=
  ⟨C10_length_entry_name.2.2.2 _ 0 (by decide),
   C10_length_entry_name.2.2.1 _ 3 (by decide)⟩

/-! ### Claim C7 -/

lemma add_names_fresh {Z : Zstd} {b : Bindle} {n d : List Nat} {c : Nat} {b1 : Bindle}
    (h : bindle_add Z b n d c = some b1)
    (hfresh : ∀ e ∈ b.entries, e.name ≠ n) :
    b1.entries.map (fun e => e.name) = b.entries.map (fun e => e.name) ++ [n] := by
  obtain ⟨p, _, _, _, hent⟩ := add_inversion h
  rcases hent with ⟨hany, _⟩ | ⟨_, hent⟩
  · exfalso
    rcases List.any_eq_true.mp hany with ⟨x, hx, hpx⟩
    exact hfresh x hx (by simpa using hpx)
  · rw [hent]
    simp

lemma runAdds_names {Z : Zstd} :
    ∀ {items : List (List Nat × List Nat × Nat)} {b b1 : Bindle},
      runAdds Z b items = some b1 →
      (items.map (fun x => x.1)).Nodup →
      (∀ x ∈ items, ∀ e ∈ b.entries, e.name ≠ x.1) →
      b1.entries.map (fun e => e.name) =
        b.entries.map (fun e => e.name) ++ items.map (fun x => x.1) := by
  intro items
  induction items with
  | nil =>
    intro b b1 h _ _
    rw [runAdds] at h
    obtain rfl := Option.some.inj h
    simp
  | cons x rest ih =>
    intro b b1 h hnd hfresh
    rw [runAdds] at h
    rcases ha : bindle_add Z b x.1 x.2.1 x.2.2 with _ | b2
    · rw [ha] at h
      simp at h
    · rw [ha] at h
      simp only [] at h
      have hb2 : b2.entries.map (fun e => e.name) =
          b.entries.map (fun e => e.name) ++ [x.1] :=
        add_names_fresh ha (fun e he => hfresh x (by simp) e he)
      simp only [List.map_cons, List.nodup_cons, List.mem_map] at hnd
      have hfresh2 : ∀ y ∈ rest, ∀ e ∈ b2.entries, e.name ≠ y.1 := by
        intro y hy e he hc
        have hmem : e.name ∈ b2.entries.map (fun e => e.name) :=
          List.mem_map_of_mem _ he
        rw [hb2] at hmem
        rcases List.mem_append.mp hmem with hmb | hmx
        · rcases List.mem_map.mp hmb with ⟨e0, he0, hname⟩
          exact hfresh y (by simp [hy]) e0 he0 (by rw [hname, hc])
        · simp only [List.mem_singleton] at hmx
          exact hnd.1 ⟨y, hy, by rw [← hc, hmx]⟩
      have hrest := ih h hnd.2 hfresh2
      rw [hrest, hb2]
      simp

lemma entry_name_iteration (b : Bindle) :
    (List.range b.entries.length).map (fun i => bindle_entry_name (some b) i) =
      b.entries.map (fun e => some (e.name, e.meta.name_len)) := by
  apply List.ext_getElem
  · simp
  · intro i h1 h2
    simp only [List.getElem_map, List.getElem_range]
    have hi : i < b.entries.length := by simpa using h1
    simp only [bindle_entry_name]
    rw [dif_pos hi]
    simp

/-- C7: for a sequence of adds with pairwise distinct names on a fresh
archive, followed by save and a reopen of the file, the reopened archive
has the same entry count, and iterating entries by index with
`bindle_entry_name` yields the names in the original insertion order. -/
theorem C7_order_preserved (Z : Zstd) (items : List (List Nat × List Nat × Nat))
    (b1 : Bindle)
    (hrun : runAdds Z freshBindle items = some b1)
    (hnd : (items.map (fun x => x.1)).Nodup)
    (hitems : ∀ x ∈ items, x.1.length ≤ 65535 ∧ x.2.1.length < 2 ^ 64)
    (hde : b1.data_end < 2 ^ 64) (hcnt64 : items.length < 2 ^ 64) :
    bindle_length (bindle_open (bindle_save b1).file) = items.length ∧
    (List.range items.length).map
        (fun i => bindle_entry_name (bindle_open (bindle_save b1).file) i) =
      items.map (fun x => some (x.1, x.1.length)) := by
  obtain ⟨hInv1, _⟩ := runAdds_BInv hrun BInv_fresh hitems
  have hnames : b1.entries.map (fun e => e.name) = items.map (fun x => x.1) := by
    have h0 := runAdds_names hrun hnd (fun x hx e he => by simp [freshBindle] at he)
    simpa [freshBindle] using h0
  have hcnt : b1.entries.length = items.length := by
    have h1 := congrArg List.length hnames
    simpa using h1
  have hopen := open_save b1 hInv1.1 hInv1.2.1 hInv1.2.2.1 hde (by omega)
    (BInv_entryWf hInv1 hde)
  have hfinal : b1.entries.map (fun e => some (e.name, e.meta.name_len)) =
      items.map (fun x => some (x.1, x.1.length)) := by
    have hnl : ∀ e ∈ b1.entries, e.meta.name_len = e.name.length := by
      intro e he
      exact (hInv1.2.2.2 e he).1
    calc b1.entries.map (fun e => some (e.name, e.meta.name_len))
        = b1.entries.map (fun e => some (e.name, e.name.length)) := by
          apply List.map_congr_left
          intro e he
          rw [hnl e he]
      _ = (b1.entries.map (fun e => e.name)).map (fun nm => some (nm, nm.length)) := by
          rw [List.map_map]
          rfl
      _ = (items.map (fun x => x.1)).map (fun nm => some (nm, nm.length)) := by
          rw [hnames]
      _ = items.map (fun x => some (x.1, x.1.length)) := by
          rw [List.map_map]
          rfl
  constructor
  · rw [hopen]
    simpa [bindle_length] using hcnt
  · rw [hopen, hcnt.symm]
    have hEN := entry_name_iteration ⟨b1.entries, b1.data_end, (bindle_save b1).file⟩
    dsimp only at hEN
    rw [hEN]
    exact hfinal

/-- Witness instantiating C7: two adds with distinct names [97] and [98]
on a fresh archive, then save and reopen. -/
theorem C7_witness :
    bindle_length (bindle_open (bindle_save ⟨[⟨⟨8, 1, 1, 0, 1, 0, 0⟩, [97]⟩,
        ⟨⟨16, 1, 1, 0, 1, 0, 0⟩, [98]⟩], 24,
        MAGIC ++ [1, 0, 0, 0, 0, 0, 0, 0] ++ [2, 0, 0, 0, 0, 0, 0, 0]⟩).file) = 2 ∧
    (List.range 2).map (fun i => bindle_entry_name
        (bindle_open (bindle_save ⟨[⟨⟨8, 1, 1, 0, 1, 0, 0⟩, [97]⟩,
          ⟨⟨16, 1, 1, 0, 1, 0, 0⟩, [98]⟩], 24,
          MAGIC ++ [1, 0, 0, 0, 0, 0, 0, 0] ++ [2, 0, 0, 0, 0, 0, 0, 0]⟩).file) i) =
      [some ([97], 1), some ([98], 1)] :=
  C7_order_preserved idZ [([97], [1], 0), ([98], [2], 0)]
    ⟨[⟨⟨8, 1, 1, 0, 1, 0, 0⟩, [97]⟩, ⟨⟨16, 1, 1, 0, 1, 0, 0⟩, [98]⟩], 24,
      MAGIC ++ [1, 0, 0, 0, 0, 0, 0, 0] ++ [2, 0, 0, 0, 0, 0, 0, 0]⟩
    (by decide) (by decide) (by decide) (by decide) (by decide)

/-! ### Claim C8 -/

lemma add_name_len_mod {Z : Zstd} {b : Bindle} {n d : List Nat} {c : Nat} {b1 : Bindle}
    (h : bindle_add Z b n d c = some b1)
    (hb : ∀ e ∈ b.entries, e.meta.name_len = e.name.length % 65536) :
    ∀ e ∈ b1.entries, e.meta.name_len = e.name.length % 65536 := by
  obtain ⟨p, _, _, _, hent⟩ := add_inversion h
  rcases hent with ⟨_, hent⟩ | ⟨_, hent⟩
  · rw [hent]
    exact shadowFirst_forall hb (fun e he => hb e he)
  · rw [hent]
    intro e he
    rcases List.mem_append.mp he with h1 | h2
    · exact hb e h1
    · simp only [List.mem_singleton] at h2
      subst h2
      rfl

lemma runAdds_name_len_mod {Z : Zstd} :
    ∀ {items : List (List Nat × List Nat × Nat)} {b b1 : Bindle},
      runAdds Z b items = some b1 →
      (∀ e ∈ b.entries, e.meta.name_len = e.name.length % 65536) →
      ∀ e ∈ b1.entries, e.meta.name_len = e.name.length % 65536 := by
  intro items
  induction items with
  | nil =>
    intro b b1 h hb
    rw [runAdds] at h
    obtain rfl := Option.some.inj h
    exact hb
  | cons x rest ih =>
    intro b b1 h hb
    rw [runAdds] at h
    rcases ha : bindle_add Z b x.1 x.2.1 x.2.2 with _ | b2
    · rw [ha] at h
      simp at h
    · rw [ha] at h
      simp only [] at h
      exact ih h (add_name_len_mod ha hb)

/-- C8 counterexample: `bindle_add` accepts the empty name, producing an
entry whose name is empty; and for a name of 65536 bytes it stores
`name_len = 0` (the u16 cast of strlen), not the actual byte length.
Both conjuncts of the claim fail. -/
theorem C8_counterexample :
    (bindle_add idZ freshBindle [] [1] 0).map
        (fun b => b.entries.map (fun e => e.name)) = some [[]] ∧
    (bindle_add idZ freshBindle (List.replicate 65536 97) [1] 0).map
        (fun b => b.entries.map (fun e => (e.name.length, e.meta.name_len))) =
      some [(65536, 0)] := by
  constructor
  · decide
  · have hlen : (List.replicate 65536 97 : List Nat).length = 65536 :=
      List.length_replicate 65536 97
    set nm : List Nat := List.replicate 65536 97 with hnm
    simp [bindle_add, freshBindle, hlen]

/-- C8 amended: after any run of adds on a fresh archive, every entry's
`name_len` field equals the byte length of its name reduced modulo 65536
(so it equals the length exactly when the length is at most 65535); the
name itself may be empty or longer than 65535 bytes, and is stored in
full in memory. -/
theorem C8_name_len_mod (Z : Zstd) (items : List (List Nat × List Nat × Nat))
    (b1 : Bindle) (hrun : runAdds Z freshBindle items = some b1) :
    b1.entries.all (fun e => e.meta.name_len == e.name.length % 65536) = true := by
  have h := runAdds_name_len_mod hrun (by simp [freshBindle])
  rw [List.all_eq_true]
  intro e he
  simpa using h e he

/-- Witness instantiating the amended C8 at a concrete run. -/
theorem C8_witness :
    (⟨[⟨⟨8, 1, 1, 0, 1, 0, 0⟩, [97]⟩], 16, MAGIC ++ [1, 0, 0, 0, 0, 0, 0, 0]⟩ :
        Bindle).entries.all (fun e => e.meta.name_len == e.name.length % 65536) = true :=
  C8_name_len_mod idZ [([97], [1], 0)]
    ⟨[⟨⟨8, 1, 1, 0, 1, 0, 0⟩, [97]⟩], 16, MAGIC ++ [1, 0, 0, 0, 0, 0, 0, 0]⟩
    (by decide)

/-! ### Claim C4 -/

lemma add_ct {Z : Zstd} {b : Bindle} {n d : List Nat} {c : Nat} {b1 : Bindle}
    (hc : c = 0 ∨ c = 1) (h : bindle_add Z b n d c = some b1)
    (hb : ∀ e ∈ b.entries, e.meta.compression_type = 0 ∨ e.meta.compression_type = 1) :
    ∀ e ∈ b1.entries, e.meta.compression_type = 0 ∨ e.meta.compression_type = 1 := by
  obtain ⟨p, _, _, _, hent⟩ := add_inversion h
  rcases hent with ⟨_, hent⟩ | ⟨_, hent⟩
  · rw [hent]
    apply shadowFirst_forall hb
    intro e _
    show (if c ≠ 0 then 1 else 0 : Nat) = 0 ∨ (if c ≠ 0 then 1 else 0 : Nat) = 1
    split
    · right
      rfl
    · left
      rfl
  · rw [hent]
    intro e he
    rcases List.mem_append.mp he with h1 | h2
    · exact hb e h1
    · simp only [List.mem_singleton] at h2
      subst h2
      show c % 256 = 0 ∨ c % 256 = 1
      rcases hc with rfl | rfl
      · left
        rfl
      · right
        rfl

lemma runAdds_ct {Z : Zstd} :
    ∀ {items : List (List Nat × List Nat × Nat)} {b b1 : Bindle},
      runAdds Z b items = some b1 →
      (∀ x ∈ items, x.2.2 = 0 ∨ x.2.2 = 1) →
      (∀ e ∈ b.entries, e.meta.compression_type = 0 ∨ e.meta.compression_type = 1) →
      ∀ e ∈ b1.entries, e.meta.compression_type = 0 ∨ e.meta.compression_type = 1 := by
  intro items
  induction items with
  | nil =>
    intro b b1 h _ hb
    rw [runAdds] at h
    obtain rfl := Option.some.inj h
    exact hb
  | cons x rest ih =>
    intro b b1 h hm hb
    rw [runAdds] at h
    rcases ha : bindle_add Z b x.1 x.2.1 x.2.2 with _ | b2
    · rw [ha] at h
      simp at h
    · rw [ha] at h
      simp only [] at h
      exact ih h (fun y hy => hm y (by simp [hy])) (add_ct (hm x (by simp)) ha hb)

set_option maxRecDepth 8192 in
/-- C4 counterexample: an add with the request-only mode Auto (2) that
creates a new entry stores the raw value 2 in `compression_type`
(bindle.c line 155 assigns `compress` unresolved), and save persists it:
reopening the saved file yields an entry record with compression_type 2
on disk, refuting the claim that only 0 or 1 is ever persisted. -/
theorem C4_counterexample :
    (bindle_add idZ freshBindle [97] [1, 2, 3] 2).map
        (fun b => (bindle_open (bindle_save b).file).map
          (fun s => s.entries.map (fun e => e.meta.compression_type))) =
      some (some [2]) := by
  decide

/-- C4 amended: provided every add uses mode None (0) or Zstd (1), every
entry record persisted by save (as reopened from the saved file) and
every record vacuum writes has compression_type 0 or 1.  An add with
Auto (2) instead persists the raw value 2 when it creates a new entry
(and records 1 when it shadows, even though the payload was stored
uncompressed). -/
theorem C4_compression_type_persisted (Z : Zstd)
    (items : List (List Nat × List Nat × Nat)) (b1 : Bindle)
    (hrun : runAdds Z freshBindle items = some b1)
    (hmodes : ∀ x ∈ items, x.2.2 = 0 ∨ x.2.2 = 1)
    (hitems : ∀ x ∈ items, x.1.length ≤ 65535 ∧ x.2.1.length < 2 ^ 64)
    (hde : b1.data_end < 2 ^ 64) (hcnt64 : b1.entries.length < 2 ^ 64) :
    (bindle_open (bindle_save b1).file).map
        (fun s => s.entries.all
          (fun e => e.meta.compression_type == 0 || e.meta.compression_type == 1)) =
      some true ∧
    (bindle_vacuum b1).entries.all
        (fun e => e.meta.compression_type == 0 || e.meta.compression_type == 1) = true := by
  obtain ⟨hInv1, _⟩ := runAdds_BInv hrun BInv_fresh hitems
  have hct := runAdds_ct hrun hmodes (by simp [freshBindle])
  have hopen := open_save b1 hInv1.1 hInv1.2.1 hInv1.2.2.1 hde hcnt64
    (BInv_entryWf hInv1 hde)
  constructor
  · rw [hopen]
    show some ((⟨b1.entries, b1.data_end, (bindle_save b1).file⟩ :
      Bindle).entries.all
        (fun e => e.meta.compression_type == 0 || e.meta.compression_type == 1)) =
      some true
    refine congrArg some ?_
    rw [List.all_eq_true]
    intro e he
    rcases hct e he with h0 | h0 <;> simp [h0]
  · rw [List.all_eq_true]
    intro e he
    have hmem : entrySig e ∈ (bindle_vacuum b1).entries.map entrySig :=
      List.mem_map_of_mem _ he
    rw [show (bindle_vacuum b1).entries.map entrySig = b1.entries.map entrySig from
      vacuumCopy_map_sig b1.file b1.entries 8 MAGIC] at hmem
    rcases List.mem_map.mp hmem with ⟨e0, he0, hsig0⟩
    have hctE : e.meta.compression_type = e0.meta.compression_type :=
      (congrArg (fun t => t.2.2.1) hsig0).symm
    rcases hct e0 he0 with h0 | h0 <;> simp [hctE, h0]

/-- Witness instantiating the amended C4: adds with modes None and Zstd
on a fresh archive, saved and reopened, and vacuumed. -/
theorem C4_witness :
    (bindle_open (bindle_save ⟨[⟨⟨8, 1, 1, 0, 1, 0, 0⟩, [97]⟩,
        ⟨⟨16, 1, 1, 0, 1, 1, 0⟩, [98]⟩], 24,
        MAGIC ++ [1, 0, 0, 0, 0, 0, 0, 0] ++ [2, 0, 0, 0, 0, 0, 0, 0]⟩).file).map
        (fun s => s.entries.all
          (fun e => e.meta.compression_type == 0 || e.meta.compression_type == 1)) =
      some true ∧
    (bindle_vacuum ⟨[⟨⟨8, 1, 1, 0, 1, 0, 0⟩, [97]⟩,
        ⟨⟨16, 1, 1, 0, 1, 1, 0⟩, [98]⟩], 24,
        MAGIC ++ [1, 0, 0, 0, 0, 0, 0, 0] ++ [2, 0, 0, 0, 0, 0, 0, 0]⟩).entries.all
        (fun e => e.meta.compression_type == 0 || e.meta.compression_type == 1) = true :=
  C4_compression_type_persisted idZ [([97], [1], 0), ([98], [2], 1)]
    ⟨[⟨⟨8, 1, 1, 0, 1, 0, 0⟩, [97]⟩, ⟨⟨16, 1, 1, 0, 1, 1, 0⟩, [98]⟩], 24,
      MAGIC ++ [1, 0, 0, 0, 0, 0, 0, 0] ++ [2, 0, 0, 0, 0, 0, 0, 0]⟩
    (by decide) (by decide) (by decide) (by decide) (by decide)

/-! ### Claim C5 -/

set_option maxRecDepth 8192 in
/-- C5 fails on the code: `bindle_save` never truncates the file.  After
add("aa"), add("bb"), save, remove("aa"), save, the second save's footer
ends at byte 80 but the file is still 120 bytes long, and the stale
footer of the first save (at bytes 104-120, recording 2 entries at index
offset 24) is the one found on reopen: the reopened archive reports 2
entries although the in-memory archive had 1.  The tuple below is
(file length, position after the new footer, in-memory length, length
after reopen). -/
theorem C5_no_truncation :
    ((bindle_add idZ freshBindle [97, 97] [1] 0).bind
      (fun s1 => (bindle_add idZ s1 [98, 98] [2] 0).map
        (fun s2 =>
          let s5 := bindle_save (bindle_remove (bindle_save s2) [97, 97])
          (s5.file.length,
           s5.data_end + ((s5.entries.map encRecord).flatten.length + 16),
           bindle_length (some s5),
           bindle_length (bindle_open s5.file))))) =
      some (120, 80, 1, 2) := by
  decide
